import Mathlib

/-
Verification of the Schemakrock scheduling core.

Shallow embedding of the conflict / free-slot engine:
  * parsing.overlaps                      -> overlaps
  * models.Event / models.Schedule        -> Event, Schedule.index, Schedule.find_free_slots
  * conflicts.check_conflict_in_db        -> check_conflict_in_db
  * conflicts.compute_db_collisions       -> compute_db_collisions (with dbCollisionPairs)
  * conflicts.compute_teacher_collisions  -> compute_teacher_collisions

Times of day are minutes since midnight (Nat); Python datetime.time values compare
exactly like their minute counts, and all times produced by the ingestion layer are
plain hour/minute values.  Python (frozen)sets of tokens are carried as lists that
enumerate the set; set semantics is recovered through membership and through
sorted-deduplicated enumeration where the source iterates over sorted(...).
-/

-- ## Stable insertion sort with a Boolean comparator.
-- Python's list.sort is a stable sort; insertion sort keeping ties in input order
-- models it exactly (sort results below are compared only up to the sortedness and
-- multiset facts proved here, which any stable sort shares).

def insertLe (le : α → α → Bool) (x : α) : List α → List α
  | [] => [x]
  | y :: ys => if le x y then x :: y :: ys else y :: insertLe le x ys

def sortLe (le : α → α → Bool) : List α → List α
  | [] => []
  | x :: xs => insertLe le x (sortLe le xs)

theorem insertLe_perm (le : α → α → Bool) (x : α) (l : List α) :
    List.Perm (insertLe le x l) (x :: l) := by
  induction l with
  | nil => simp [insertLe]
  | cons y ys ih =>
    simp only [insertLe]
    by_cases h : le x y
    · simp [h]
    · simp only [h, if_neg, Bool.false_eq_true, not_false_iff]
      exact ((ih.cons y).trans (List.Perm.swap x y ys))

theorem sortLe_perm (le : α → α → Bool) (l : List α) : List.Perm (sortLe le l) l := by
  induction l with
  | nil => simp [sortLe]
  | cons x xs ih => exact (insertLe_perm le x (sortLe le xs)).trans (ih.cons x)

theorem mem_sortLe {le : α → α → Bool} {a : α} {l : List α} : a ∈ sortLe le l ↔ a ∈ l :=
  (sortLe_perm le l).mem_iff

theorem pairwise_insertLe {le : α → α → Bool}
    (htrans : ∀ a b c, le a b = true → le b c = true → le a c = true)
    (htot : ∀ a b, le a b = true ∨ le b a = true) (x : α) (l : List α)
    (hl : List.Pairwise (fun a b => le a b = true) l) :
    List.Pairwise (fun a b => le a b = true) (insertLe le x l) := by
  induction l with
  | nil => simp [insertLe]
  | cons y ys ih =>
    rcases List.pairwise_cons.mp hl with ⟨hy, hys⟩
    simp only [insertLe]
    by_cases h : le x y = true
    · rw [if_pos h]
      refine List.pairwise_cons.mpr ⟨?_, hl⟩
      intro z hz
      rcases List.mem_cons.mp hz with rfl | hz
      · exact h
      · exact htrans x y z h (hy z hz)
    · rw [if_neg h]
      refine List.pairwise_cons.mpr ⟨?_, ih hys⟩
      intro z hz
      have hz' := (insertLe_perm le x ys).mem_iff.mp hz
      rcases List.mem_cons.mp hz' with rfl | hz2
      · rcases htot y z with hyx | hxy
        · exact hyx
        · exact absurd hxy h
      · exact hy z hz2

theorem sortLe_sorted {le : α → α → Bool}
    (htrans : ∀ a b c, le a b = true → le b c = true → le a c = true)
    (htot : ∀ a b, le a b = true ∨ le b a = true) (l : List α) :
    List.Pairwise (fun a b => le a b = true) (sortLe le l) := by
  induction l with
  | nil => simp [sortLe]
  | cons x xs ih => exact pairwise_insertLe htrans htot x _ ih

-- ## Lexicographic tuple comparison, the order Python uses on sort-key tuples.

def lexProd [DecidableEq α] (lt : α → α → Bool) (le : β → β → Bool) (p q : α × β) : Bool :=
  lt p.1 q.1 || (decide (p.1 = q.1) && le p.2 q.2)

theorem lexProd_trans [DecidableEq α] {lt : α → α → Bool} {le : β → β → Bool}
    (hltt : ∀ a b c, lt a b = true → lt b c = true → lt a c = true)
    (hlet : ∀ a b c, le a b = true → le b c = true → le a c = true)
    (p q r : α × β) (h1 : lexProd lt le p q = true) (h2 : lexProd lt le q r = true) :
    lexProd lt le p r = true := by
  simp only [lexProd, Bool.or_eq_true, Bool.and_eq_true, decide_eq_true_eq] at *
  rcases h1 with h1 | ⟨e1, l1⟩
  · rcases h2 with h2 | ⟨e2, l2⟩
    · exact Or.inl (hltt _ _ _ h1 h2)
    · exact Or.inl (e2 ▸ h1)
  · rcases h2 with h2 | ⟨e2, l2⟩
    · exact Or.inl (e1 ▸ h2)
    · exact Or.inr ⟨e1.trans e2, hlet _ _ _ l1 l2⟩

theorem lexProd_total [DecidableEq α] {lt : α → α → Bool} {le : β → β → Bool}
    (htri : ∀ a b : α, lt a b = true ∨ a = b ∨ lt b a = true)
    (hletot : ∀ a b : β, le a b = true ∨ le b a = true)
    (p q : α × β) : lexProd lt le p q = true ∨ lexProd lt le q p = true := by
  simp only [lexProd, Bool.or_eq_true, Bool.and_eq_true, decide_eq_true_eq]
  rcases htri p.1 q.1 with h | h | h
  · exact Or.inl (Or.inl h)
  · rcases hletot p.2 q.2 with hh | hh
    · exact Or.inl (Or.inr ⟨h, hh⟩)
    · exact Or.inr (Or.inr ⟨h.symm, hh⟩)
  · exact Or.inr (Or.inl h)

def natLt (a b : Nat) : Bool := decide (a < b)

def natLe (a b : Nat) : Bool := decide (a ≤ b)

theorem natLt_trans (a b c : Nat) (h1 : natLt a b = true) (h2 : natLt b c = true) :
    natLt a c = true := by
  simp only [natLt, decide_eq_true_eq] at *; omega

theorem natLe_trans (a b c : Nat) (h1 : natLe a b = true) (h2 : natLe b c = true) :
    natLe a c = true := by
  simp only [natLe, decide_eq_true_eq] at *; omega

theorem natLt_trichotomy (a b : Nat) : natLt a b = true ∨ a = b ∨ natLt b a = true := by
  simp only [natLt, decide_eq_true_eq]; omega

theorem natLe_total (a b : Nat) : natLe a b = true ∨ natLe b a = true := by
  simp only [natLe, decide_eq_true_eq]; omega

-- Python compares (start, end) tuples lexicographically when sorting interval lists.
def pairLe (p q : Nat × Nat) : Bool := lexProd natLt natLe p q

theorem pairLe_trans (p q r : Nat × Nat) (h1 : pairLe p q = true) (h2 : pairLe q r = true) :
    pairLe p r = true :=
  lexProd_trans natLt_trans natLe_trans p q r h1 h2

theorem pairLe_total (p q : Nat × Nat) : pairLe p q = true ∨ pairLe q p = true :=
  lexProd_total natLt_trichotomy natLe_total p q

theorem pairLe_fst_le {p q : Nat × Nat} (h : pairLe p q = true) : p.1 ≤ q.1 := by
  simp only [pairLe, lexProd, natLt, natLe, Bool.or_eq_true, Bool.and_eq_true,
    decide_eq_true_eq] at h
  rcases h with h | ⟨h, _⟩ <;> omega

-- ## Python string comparison (lexicographic on code points, shorter prefix first).

def charsLt : List Char → List Char → Bool
  | [], [] => false
  | [], _ :: _ => true
  | _ :: _, [] => false
  | a :: as, b :: bs => decide (a < b) || (decide (a = b) && charsLt as bs)

def strLt (s t : String) : Bool := charsLt s.data t.data

theorem charsLt_trans : ∀ a b c : List Char,
    charsLt a b = true → charsLt b c = true → charsLt a c = true
  | [], [], _ => by simp [charsLt]
  | [], _ :: _, [] => by intro _ h; simp [charsLt] at h
  | [], _ :: _, _ :: _ => by intros; simp [charsLt]
  | _ :: _, [], _ => by intro h; simp [charsLt] at h
  | _ :: _, _ :: _, [] => by intro _ h; simp [charsLt] at h
  | a :: as, b :: bs, c :: cs => by
    simp only [charsLt, Bool.or_eq_true, Bool.and_eq_true, decide_eq_true_eq]
    rintro (h1 | ⟨rfl, h1⟩) (h2 | ⟨rfl, h2⟩)
    · exact Or.inl (lt_trans h1 h2)
    · exact Or.inl h1
    · exact Or.inl h2
    · exact Or.inr ⟨rfl, charsLt_trans as bs cs h1 h2⟩

theorem charsLt_trichotomy : ∀ a b : List Char,
    charsLt a b = true ∨ a = b ∨ charsLt b a = true
  | [], [] => Or.inr (Or.inl rfl)
  | [], _ :: _ => Or.inl (by simp [charsLt])
  | _ :: _, [] => Or.inr (Or.inr (by simp [charsLt]))
  | a :: as, b :: bs => by
    rcases lt_trichotomy a b with h | rfl | h
    · exact Or.inl (by simp [charsLt, h])
    · rcases charsLt_trichotomy as bs with h | rfl | h
      · exact Or.inl (by simp [charsLt, h])
      · exact Or.inr (Or.inl rfl)
      · exact Or.inr (Or.inr (by simp [charsLt, h]))
    · exact Or.inr (Or.inr (by simp [charsLt, h]))

theorem strLt_trans (s t u : String) (h1 : strLt s t = true) (h2 : strLt t u = true) :
    strLt s u = true := charsLt_trans _ _ _ h1 h2

theorem strLt_trichotomy (s t : String) : strLt s t = true ∨ s = t ∨ strLt t s = true := by
  rcases charsLt_trichotomy s.data t.data with h | h | h
  · exact Or.inl h
  · refine Or.inr (Or.inl ?_)
    cases s with
    | mk d1 => cases t with
      | mk d2 => exact congrArg String.mk h
  · exact Or.inr (Or.inr h)

-- ## parsing.overlaps (the Streamlit variant is an identical copy).

/-- Shallow embedding of parsing.overlaps:
return (a_start < b_end) and (b_start < a_end) and not (a_end == b_start or b_end == a_start). -/
def overlaps (a_start a_end b_start b_end : Nat) : Bool :=
  (decide (a_start < b_end) && decide (b_start < a_end)) &&
    !(a_end == b_start || b_end == a_start)

theorem overlaps_iff_lt {aS aE bS bE : Nat} :
    overlaps aS aE bS bE = true ↔ aS < bE ∧ bS < aE := by
  simp only [overlaps, Bool.and_eq_true, decide_eq_true_eq, Bool.not_eq_true',
    Bool.or_eq_false_iff, beq_eq_false_iff_ne, ne_eq]
  omega

/-- C1: overlaps(aStart, aEnd, bStart, bEnd) returns true if and only if
aStart < bEnd and bStart < aEnd, and in particular returns false whenever the two
intervals merely touch at a boundary (aEnd = bStart or bEnd = aStart). -/
theorem overlaps_boundary_exclusive (aS aE bS bE : Nat) :
    (overlaps aS aE bS bE = true ↔ aS < bE ∧ bS < aE) ∧
    (aE = bS ∨ bE = aS → overlaps aS aE bS bE = false) := by
  refine ⟨overlaps_iff_lt, ?_⟩
  intro h
  rcases Bool.eq_false_or_eq_true (overlaps aS aE bS bE) with ht | hf
  · rcases overlaps_iff_lt.mp ht with ⟨h1, h2⟩
    rcases h with rfl | rfl <;> omega
  · exact hf

/-- Witness for C1 at the spec's boundary example: 10:00-12:00 against 12:00-14:00
touches and is no overlap; 10:00-12:00 against 11:59-14:00 overlaps. -/
theorem overlaps_boundary_exclusive_witness :
    overlaps 600 720 720 840 = false ∧ overlaps 600 720 719 840 = true :=
  ⟨(overlaps_boundary_exclusive 600 720 720 840).2 (Or.inl rfl), by decide⟩

-- ## models.Event and models.Schedule.

/-- Shallow embedding of models.Event: one normalized timetable session. The Python
field end is called stop here (end is a Lean keyword); groups/weeks/teachers are
lists enumerating the Python frozensets. -/
structure Event where
  course : String
  groups : List String
  day : Nat
  start : Nat
  stop : Nat
  weeks : List Nat
  teachers : List String
deriving DecidableEq

namespace Schedule

/-- The pairs appended under index[g][w][d] while Schedule.__init__ ingests events:
one (start, end) pair per event that carries group g, covers week w and lies on day d
(a frozenset contributes each member once, hence the membership test). -/
def rawIndex (events : List Event) (g : String) (w d : Nat) : List (Nat × Nat) :=
  (events.filter fun ev =>
    decide (g ∈ ev.groups) && decide (w ∈ ev.weeks) && ev.day == d).map
    fun ev => (ev.start, ev.stop)

/-- Schedule.__init__ finally sorts every innermost interval list with Python list.sort,
which orders (start, end) pairs lexicographically; the index is a value never mutated
after construction. -/
def index (events : List Event) (g : String) (w d : Nat) : List (Nat × Nat) :=
  sortLe pairLe (rawIndex events g w d)

end Schedule

/-- C9: after construction, the interval list stored in the Schedule index under every
(group, week, day) key is sorted ascending by start time; the index is a pure value,
so it cannot be mutated afterwards. -/
theorem schedule_index_sorted (events : List Event) (g : String) (w d : Nat) :
    List.Pairwise (fun p q : Nat × Nat => p.1 ≤ q.1) (Schedule.index events g w d) :=
  (sortLe_sorted pairLe_trans pairLe_total (Schedule.rawIndex events g w d)).imp
    fun hpq => pairLe_fst_le hpq

namespace Schedule

/-- The merge loop inside find_free_slots, with cur playing the role of merged[-1]:
a new block is opened exactly when the next start lies at or after the current end
(the source tests s >= merged[-1][1]); otherwise the current end is extended to the max. -/
def mergeInto (cur : Nat × Nat) : List (Nat × Nat) → List (Nat × Nat)
  | [] => [cur]
  | p :: rest =>
    if cur.2 ≤ p.1 then cur :: mergeInto p rest
    else mergeInto (cur.1, max cur.2 p.2) rest

/-- The merged busy-interval list built by find_free_slots from the sorted busy list. -/
def mergeBusy : List (Nat × Nat) → List (Nat × Nat)
  | [] => []
  | p :: rest => mergeInto p rest

/-- The is_free closure of find_free_slots: no merged busy interval overlaps [s, e). -/
def is_free (merged : List (Nat × Nat)) (s e : Nat) : Bool :=
  merged.all fun p => !overlaps s e p.1 p.2

/-- The candidate while-loop of find_free_slots: emit cur while cur + dur <= end,
stepping cur by the granularity.  The loop is modelled with explicit fuel; endB + 1
units are enough for every positive step, because cur strictly increases and any
successful iteration needs cur <= endB.  (With step 0 the Python loop never
terminates; nothing below is claimed for that case.) -/
def slotLoop : Nat → Nat → Nat → Nat → Nat → List Nat
  | 0, _, _, _, _ => []
  | fuel + 1, cur, dur, step, endB =>
    if cur + dur ≤ endB then cur :: slotLoop fuel (cur + step) dur step endB else []

/-- Shallow embedding of Schedule.find_free_slots (models.py; the Streamlit variant is
identical).  Per (week, day): the busy lists of all requested groups are concatenated
and re-sorted (the source's busy.extend/busy.sort), merged, and every candidate start
accepted by is_free is emitted as (week, day, start, start + duration).  The source's
local names busy and merged are inlined here. -/
def find_free_slots (events : List Event) (groups : List String) (duration_min : Nat)
    (weeks : List Nat) (days_allowed : List Nat) (day_window : Nat × Nat)
    (granularity_min : Nat) : List (Nat × Nat × Nat × Nat) :=
  weeks.flatMap fun w =>
    days_allowed.flatMap fun d =>
      (slotLoop (day_window.2 + 1) day_window.1 duration_min granularity_min
          day_window.2).filterMap fun s =>
        if is_free (mergeBusy (sortLe pairLe (groups.flatMap fun g => index events g w d)))
            s (s + duration_min) then
          some (w, d, s, s + duration_min)
        else
          none

end Schedule

-- Structural facts about the merge loop.

theorem mergeInto_head_covered : ∀ (l : List (Nat × Nat)) (cur : Nat × Nat),
    ∃ q ∈ Schedule.mergeInto cur l, q.1 = cur.1 ∧ cur.2 ≤ q.2
  | [], cur => ⟨cur, by simp [Schedule.mergeInto]⟩
  | a :: rest, cur => by
    simp only [Schedule.mergeInto]
    by_cases h : cur.2 ≤ a.1
    · rw [if_pos h]
      exact ⟨cur, List.mem_cons_self _ _, rfl, le_refl _⟩
    · rw [if_neg h]
      rcases mergeInto_head_covered rest (cur.1, max cur.2 a.2) with ⟨q, hq, h1, h2⟩
      exact ⟨q, hq, h1, le_trans (le_max_left _ _) h2⟩

theorem mergeInto_covers : ∀ (l : List (Nat × Nat)) (cur : Nat × Nat),
    List.Pairwise (fun p q : Nat × Nat => p.1 ≤ q.1) (cur :: l) →
    ∀ p ∈ l, ∃ q ∈ Schedule.mergeInto cur l, q.1 ≤ p.1 ∧ p.2 ≤ q.2
  | [], _, _, _, hp => absurd hp (List.not_mem_nil _)
  | a :: rest, cur, hsort, p, hp => by
    rcases List.pairwise_cons.mp hsort with ⟨hc, hsort'⟩
    rcases List.pairwise_cons.mp hsort' with ⟨ha, hrest⟩
    simp only [Schedule.mergeInto]
    by_cases h : cur.2 ≤ a.1
    · rw [if_pos h]
      rcases List.mem_cons.mp hp with rfl | hp'
      · rcases mergeInto_head_covered rest p with ⟨q, hq, h1, h2⟩
        exact ⟨q, List.mem_cons_of_mem _ hq, le_of_eq h1, h2⟩
      · rcases mergeInto_covers rest a hsort' p hp' with ⟨q, hq, h1, h2⟩
        exact ⟨q, List.mem_cons_of_mem _ hq, h1, h2⟩
    · rw [if_neg h]
      have hsort2 : List.Pairwise (fun p q : Nat × Nat => p.1 ≤ q.1)
          ((cur.1, max cur.2 a.2) :: rest) := by
        refine List.pairwise_cons.mpr ⟨?_, hrest⟩
        intro z hz
        exact hc z (List.mem_cons_of_mem _ hz)
      rcases List.mem_cons.mp hp with rfl | hp'
      · rcases mergeInto_head_covered rest (cur.1, max cur.2 p.2) with ⟨q, hq, h1, h2⟩
        refine ⟨q, hq, ?_, ?_⟩
        · exact h1 ▸ hc p (List.mem_cons_self _ _)
        · exact le_trans (le_max_right _ _) h2
      · rcases mergeInto_covers rest (cur.1, max cur.2 a.2) hsort2 p hp' with ⟨q, hq, h1, h2⟩
        exact ⟨q, hq, h1, h2⟩

/-- Every busy interval in a start-sorted list is covered by one merged block. -/
theorem mergeBusy_covers (busy : List (Nat × Nat))
    (hsort : List.Pairwise (fun p q : Nat × Nat => p.1 ≤ q.1) busy) :
    ∀ p ∈ busy, ∃ q ∈ Schedule.mergeBusy busy, q.1 ≤ p.1 ∧ p.2 ≤ q.2 := by
  cases busy with
  | nil => intro p hp; exact absurd hp (List.not_mem_nil _)
  | cons c rest =>
    intro p hp
    rcases List.mem_cons.mp hp with rfl | hp'
    · rcases mergeInto_head_covered rest p with ⟨q, hq, h1, h2⟩
      exact ⟨q, hq, le_of_eq h1, h2⟩
    · exact mergeInto_covers rest c hsort p hp'

theorem mergeInto_head_fst : ∀ (l : List (Nat × Nat)) (cur : Nat × Nat),
    ∃ z zs, Schedule.mergeInto cur l = z :: zs ∧ z.1 = cur.1
  | [], cur => ⟨cur, [], rfl, rfl⟩
  | a :: rest, cur => by
    simp only [Schedule.mergeInto]
    by_cases h : cur.2 ≤ a.1
    · rw [if_pos h]
      exact ⟨cur, _, rfl, rfl⟩
    · rw [if_neg h]
      rcases mergeInto_head_fst rest (cur.1, max cur.2 a.2) with ⟨z, zs, he, h1⟩
      exact ⟨z, zs, he, h1⟩

theorem mergeInto_chain : ∀ (l : List (Nat × Nat)) (cur : Nat × Nat),
    List.Chain' (fun p q : Nat × Nat => p.2 ≤ q.1) (Schedule.mergeInto cur l)
  | [], cur => by simp [Schedule.mergeInto]
  | a :: rest, cur => by
    simp only [Schedule.mergeInto]
    by_cases h : cur.2 ≤ a.1
    · rw [if_pos h]
      rcases mergeInto_head_fst rest a with ⟨z, zs, he, h1⟩
      rw [he]
      refine List.chain'_cons.mpr ⟨?_, ?_⟩
      · rw [h1]; exact h
      · have := mergeInto_chain rest a
        rw [he] at this
        exact this
    · rw [if_neg h]
      exact mergeInto_chain rest (cur.1, max cur.2 a.2)

/-- C5 counterexample: two busy intervals that merely touch (10:00-12:00 and
12:00-14:00) are NOT merged by the find_free_slots merge step; the output keeps two
blocks rather than the single contiguous block the claim promises. -/
theorem mergeBusy_touching_counterexample :
    Schedule.mergeBusy [(600, 720), (720, 840)] = [(600, 720), (720, 840)] ∧
    Schedule.mergeBusy [(600, 720), (720, 840)] ≠ [(600, 840)] := by decide

/-- C5 amended: on a start-sorted busy list, the merge step combines a next interval
into the current run only when it starts strictly before the current end
(next.start < current.end); intervals that merely touch start a new block, so adjacent
merged blocks always satisfy current.end <= next.start, and every busy interval is
contained in some merged block. -/
theorem mergeBusy_strict_overlap_merge (busy : List (Nat × Nat))
    (hsort : List.Pairwise (fun p q : Nat × Nat => p.1 ≤ q.1) busy) :
    List.Chain' (fun p q : Nat × Nat => p.2 ≤ q.1) (Schedule.mergeBusy busy) ∧
    ∀ p ∈ busy, ∃ q ∈ Schedule.mergeBusy busy, q.1 ≤ p.1 ∧ p.2 ≤ q.2 := by
  refine ⟨?_, mergeBusy_covers busy hsort⟩
  cases busy with
  | nil => simp [Schedule.mergeBusy]
  | cons c rest => exact mergeInto_chain rest c

/-- Witness for C5 amended: strictly overlapping 08:00-09:20 and 09:00-10:00 fuse into
08:00-10:00, while 10:00-11:00 touching at 10:00 stays separate. -/
theorem mergeBusy_strict_overlap_merge_witness :
    List.Chain' (fun p q : Nat × Nat => p.2 ≤ q.1)
      (Schedule.mergeBusy [(480, 560), (540, 600), (600, 660)]) ∧
    ∀ p ∈ [(480, 560), (540, 600), (600, 660)],
      ∃ q ∈ Schedule.mergeBusy [(480, 560), (540, 600), (600, 660)],
        q.1 ≤ p.1 ∧ p.2 ≤ q.2 :=
  mergeBusy_strict_overlap_merge [(480, 560), (540, 600), (600, 660)] (by decide)

/-- Decomposition of membership in find_free_slots output. -/
theorem mem_find_free_slots {events : List Event} {groups : List String}
    {duration_min : Nat} {weeks days_allowed : List Nat} {day_window : Nat × Nat}
    {granularity_min : Nat} {w d s e : Nat}
    (h : (w, d, s, e) ∈ Schedule.find_free_slots events groups duration_min weeks
      days_allowed day_window granularity_min) :
    w ∈ weeks ∧ d ∈ days_allowed ∧ e = s + duration_min ∧
    s ∈ Schedule.slotLoop (day_window.2 + 1) day_window.1 duration_min granularity_min
      day_window.2 ∧
    Schedule.is_free
      (Schedule.mergeBusy (sortLe pairLe (groups.flatMap fun g => Schedule.index events g w d)))
      s (s + duration_min) = true := by
  simp only [Schedule.find_free_slots, List.mem_flatMap, List.mem_filterMap] at h
  rcases h with ⟨w', hw', d', hd', s', hs', hok⟩
  rcases Bool.eq_false_or_eq_true (Schedule.is_free
    (Schedule.mergeBusy (sortLe pairLe (groups.flatMap fun g => Schedule.index events g w' d')))
    s' (s' + duration_min)) with hfree | hfree
  · rw [if_pos hfree] at hok
    have h4 := Option.some.inj hok
    obtain ⟨rfl, rfl, rfl, rfl⟩ : w' = w ∧ d' = d ∧ s' = s ∧ s' + duration_min = e := by
      have h1 := congrArg Prod.fst h4
      have h2 := congrArg (fun t => t.2.1) h4
      have h3 := congrArg (fun t => t.2.2.1) h4
      have h5 := congrArg (fun t => t.2.2.2) h4
      exact ⟨h1, h2, h3, h5⟩
    exact ⟨hw', hd', rfl, hs', hfree⟩
  · rw [if_neg (by simp [hfree])] at hok
    exact absurd hok (Option.noConfusion)

/-- C3: free-slot exclusivity: no busy interval stored in the Schedule index under
(g, week, day), for any queried group g, overlaps a slot returned by find_free_slots. -/
theorem find_free_slots_exclusive (events : List Event) (groups : List String)
    (duration_min : Nat) (weeks days_allowed : List Nat) (day_window : Nat × Nat)
    (granularity_min : Nat) (w d s e : Nat)
    (hmem : (w, d, s, e) ∈ Schedule.find_free_slots events groups duration_min weeks
      days_allowed day_window granularity_min)
    (g : String) (hg : g ∈ groups) (bs be : Nat)
    (hb : (bs, be) ∈ Schedule.index events g w d) :
    overlaps s e bs be = false := by
  rcases mem_find_free_slots hmem with ⟨-, -, rfl, -, hfree⟩
  have hmemb : (bs, be) ∈ sortLe pairLe (groups.flatMap fun g => Schedule.index events g w d) :=
    mem_sortLe.mpr (List.mem_flatMap.mpr ⟨g, hg, hb⟩)
  have hsortb : List.Pairwise (fun p q : Nat × Nat => p.1 ≤ q.1)
      (sortLe pairLe (groups.flatMap fun g => Schedule.index events g w d)) :=
    (sortLe_sorted pairLe_trans pairLe_total _).imp fun h => pairLe_fst_le h
  rcases mergeBusy_covers _ hsortb (bs, be) hmemb with ⟨⟨ms, me⟩, hq, hle1, hle2⟩
  have hnov : overlaps s (s + duration_min) ms me = false := by
    have h := (List.all_eq_true.mp hfree) (ms, me) hq
    simpa using h
  rcases Bool.eq_false_or_eq_true (overlaps s (s + duration_min) bs be) with ht | hf
  · rcases overlaps_iff_lt.mp ht with ⟨h1, h2⟩
    have : overlaps s (s + duration_min) ms me = true :=
      overlaps_iff_lt.mpr ⟨lt_of_lt_of_le h1 hle2, lt_of_le_of_lt hle1 h2⟩
    rw [this] at hnov
    exact absurd hnov (by simp)
  · exact hf

/-- Witness for C3, the spec's scenario C: with one busy interval 09:00-10:00 for
MTBG in week 36 on Monday, the returned slot 10:00-11:00 does not overlap it. -/
theorem find_free_slots_exclusive_witness : overlaps 600 660 540 600 = false :=
  find_free_slots_exclusive
    [Event.mk "KURS" ["MTBG"] 0 540 600 [36] ["ANNA"]] ["MTBG"] 60 [36] [0] (480, 720) 30
    36 0 600 660 (by decide) "MTBG" (by decide) 540 600 (by decide)

/-- Bounds carried by every start the candidate loop emits. -/
theorem slotLoop_bounds : ∀ (fuel cur dur step endB s : Nat),
    s ∈ Schedule.slotLoop fuel cur dur step endB → cur ≤ s ∧ s + dur ≤ endB
  | 0, _, _, _, _, _ => by simp [Schedule.slotLoop]
  | fuel + 1, cur, dur, step, endB, s => by
    simp only [Schedule.slotLoop]
    by_cases h : cur + dur ≤ endB
    · rw [if_pos h]
      intro hs
      rcases List.mem_cons.mp hs with rfl | hs'
      · exact ⟨le_refl _, h⟩
      · have hrec := slotLoop_bounds fuel (cur + step) dur step endB s hs'
        exact ⟨by omega, hrec.2⟩
    · rw [if_neg h]
      simp

/-- C4: free-slot fit: every returned slot lies inside the day window and has exactly
the requested duration. -/
theorem find_free_slots_fit (events : List Event) (groups : List String)
    (duration_min : Nat) (weeks days_allowed : List Nat) (ws we : Nat)
    (granularity_min : Nat) (w d s e : Nat)
    (hmem : (w, d, s, e) ∈ Schedule.find_free_slots events groups duration_min weeks
      days_allowed (ws, we) granularity_min) :
    ws ≤ s ∧ e ≤ we ∧ e - s = duration_min := by
  rcases mem_find_free_slots hmem with ⟨-, -, rfl, hs, -⟩
  have hb := slotLoop_bounds _ _ _ _ _ _ hs
  exact ⟨hb.1, hb.2, by omega⟩

/-- Witness for C4 at the slot 08:00-09:00 in an 08:00-12:00 window with 60 minutes. -/
theorem find_free_slots_fit_witness : 480 ≤ 480 ∧ 540 ≤ 720 ∧ 540 - 480 = 60 :=
  find_free_slots_fit
    [Event.mk "KURS" ["MTBG"] 0 540 600 [36] ["ANNA"]] ["MTBG"] 60 [36] [0] 480 720 30
    36 0 480 540 (by decide)

/-- C6 evaluation: find_free_slots performs no argument validation at all.  With
duration 0 it silently returns zero-length pseudo-slots; with an inverted window it
silently returns the empty list; neither raises any InvalidArgument-class error (the
return type is a plain list, as in the source, which contains no raise).  With
granularity 0 the Python loop does not terminate, which is also not a fail-fast error. -/
theorem find_free_slots_missing_validation :
    Schedule.find_free_slots [] ["MTBG"] 0 [36] [0] (480, 600) 30 =
      [(36, 0, 480, 480), (36, 0, 510, 510), (36, 0, 540, 540), (36, 0, 570, 570),
        (36, 0, 600, 600)] ∧
    Schedule.find_free_slots [] ["MTBG"] 60 [36] [0] (1080, 480) 30 = [] := by decide

-- ## conflicts.check_conflict_in_db.

/-- Shallow embedding of one stored events row as conflicts.py consumes it, after the
parsing helpers have run: groups = parse_program(g_str), weeks = parse_weeks(weeks),
teachers = parse_program(teacher_str), start/stop = parse_time_str of the stored
times.  Parsing is the external ingestion collaborator's job per the spec; rows here
carry the already-parsed values, with token/week sets enumerated as lists. -/
structure Row where
  course : String
  groups : List String
  day : Nat
  start : Nat
  stop : Nat
  weeks : List Nat
  sem : String
  teachers : List String
deriving DecidableEq

/-- Shallow embedding of conflicts.check_conflict_in_db, returning the rows for which
the source appends a conflict record (the record's fields are projections of the
matching row and the query).  The source's skip chain: day mismatch; then
same_group = bool(groups and (groups and g_set)) and same_teacher likewise with the
optional teacher set (both False on empty or absent sets, which the any-over-list
encoding reproduces); then week membership; then overlaps(event, proposal). -/
def check_conflict_in_db (rows : List Row) (groups : List String) (day : Nat)
    (start stop week : Nat) (teachers : Option (List String)) : List Row :=
  rows.filter fun r =>
    r.day == day &&
    (groups.any (fun g => decide (g ∈ r.groups)) ||
      (teachers.getD []).any fun t => decide (t ∈ r.teachers)) &&
    decide (week ∈ r.weeks) &&
    overlaps r.start r.stop start stop

/-- C2: check_conflict_in_db reports a candidate row if and only if its day equals
the query day, the query week belongs to its weeks, the proposed groups meet its
groups or the proposed teachers meet its teachers (each intersection false when the
respective proposed set is empty or absent), and the stored times truly overlap the
proposed times; disjoint rows or rows excluding the week are never reported. -/
theorem check_conflict_in_db_iff (rows : List Row) (groups : List String) (day : Nat)
    (start stop week : Nat) (teachers : Option (List String)) (r : Row) :
    r ∈ check_conflict_in_db rows groups day start stop week teachers ↔
      r ∈ rows ∧ r.day = day ∧ week ∈ r.weeks ∧
        ((∃ g ∈ groups, g ∈ r.groups) ∨ ∃ t ∈ teachers.getD [], t ∈ r.teachers) ∧
        overlaps r.start r.stop start stop = true := by
  simp only [check_conflict_in_db, List.mem_filter, Bool.and_eq_true, Bool.or_eq_true,
    List.any_eq_true, decide_eq_true_eq, beq_iff_eq]
  constructor
  · rintro ⟨hmem, ⟨⟨hday, hsh⟩, hweek⟩, hov⟩
    exact ⟨hmem, hday, hweek, hsh, hov⟩
  · rintro ⟨hmem, hday, hweek, hsh, hov⟩
    exact ⟨hmem, ⟨⟨hday, hsh⟩, hweek⟩, hov⟩

-- ## The per-bucket pairwise scan shared by both collision reporters.

/-- Inner j-loop of the per-bucket scan for a fixed left row r1: walk the rows after
it, break as soon as one starts at or after r1's end (the source's s2 >= e1 break),
and emit the pair whenever overlaps accepts.  fs and fe project start and end. -/
def innerScan (fs fe : α → Nat) (r1 : α) : List α → List (α × α)
  | [] => []
  | r2 :: rest =>
    if fe r1 ≤ fs r2 then []
    else if overlaps (fs r1) (fe r1) (fs r2) (fe r2) then
      (r1, r2) :: innerScan fs fe r1 rest
    else innerScan fs fe r1 rest

/-- Outer i-loop of the per-bucket scan: each row against the rows after it. -/
def scanPairs (fs fe : α → Nat) : List α → List (α × α)
  | [] => []
  | r :: rest => innerScan fs fe r rest ++ scanPairs fs fe rest

/-- Modelled from the spec: the exhaustive inner scan over all forward rows with no
early exit, the reference point of the refinement claim. -/
def innerScanExhaustive (fs fe : α → Nat) (r1 : α) : List α → List (α × α)
  | [] => []
  | r2 :: rest =>
    if overlaps (fs r1) (fe r1) (fs r2) (fe r2) then
      (r1, r2) :: innerScanExhaustive fs fe r1 rest
    else innerScanExhaustive fs fe r1 rest

/-- Modelled from the spec: the exhaustive scan over all pairs j > i. -/
def scanPairsExhaustive (fs fe : α → Nat) : List α → List (α × α)
  | [] => []
  | r :: rest => innerScanExhaustive fs fe r rest ++ scanPairsExhaustive fs fe rest

theorem overlaps_false_of_le {aS aE bS bE : Nat} (h : aE ≤ bS) :
    overlaps aS aE bS bE = false := by
  rcases Bool.eq_false_or_eq_true (overlaps aS aE bS bE) with ht | hf
  · rcases overlaps_iff_lt.mp ht with ⟨-, h2⟩
    omega
  · exact hf

theorem innerScanExhaustive_nil_of_ge (fs fe : α → Nat) (r1 : α) :
    ∀ l : List α, (∀ x ∈ l, fe r1 ≤ fs x) → innerScanExhaustive fs fe r1 l = []
  | [], _ => rfl
  | r2 :: rest, h => by
    have hov : overlaps (fs r1) (fe r1) (fs r2) (fe r2) = false :=
      overlaps_false_of_le (h r2 (List.mem_cons_self _ _))
    simp only [innerScanExhaustive, hov, Bool.false_eq_true, if_false]
    exact innerScanExhaustive_nil_of_ge fs fe r1 rest
      fun x hx => h x (List.mem_cons_of_mem _ hx)

theorem innerScan_eq_exhaustive (fs fe : α → Nat) (r1 : α) :
    ∀ l : List α, List.Pairwise (fun a b => fs a ≤ fs b) l →
      innerScan fs fe r1 l = innerScanExhaustive fs fe r1 l
  | [], _ => rfl
  | r2 :: rest, hsort => by
    rcases List.pairwise_cons.mp hsort with ⟨h2, hrest⟩
    by_cases hb : fe r1 ≤ fs r2
    · have hov : overlaps (fs r1) (fe r1) (fs r2) (fe r2) = false :=
        overlaps_false_of_le hb
      simp only [innerScan, innerScanExhaustive, hov, Bool.false_eq_true, if_false,
        if_pos hb]
      exact (innerScanExhaustive_nil_of_ge fs fe r1 rest
        fun x hx => le_trans hb (h2 x hx)).symm
    · simp only [innerScan, innerScanExhaustive, if_neg hb]
      rw [innerScan_eq_exhaustive fs fe r1 rest hrest]

/-- C7: on a start-sorted bucket, the scan with the early break at the first j with
row[j].start >= row[i].end emits exactly the same pairs, in the same order, as the
exhaustive scan over all j > i. -/
theorem scanPairs_break_eq_exhaustive (fs fe : α → Nat) :
    ∀ rows : List α, List.Pairwise (fun a b => fs a ≤ fs b) rows →
      scanPairs fs fe rows = scanPairsExhaustive fs fe rows
  | [], _ => rfl
  | r :: rest, hsort => by
    rcases List.pairwise_cons.mp hsort with ⟨-, hrest⟩
    simp only [scanPairs, scanPairsExhaustive]
    rw [innerScan_eq_exhaustive fs fe r rest hrest,
      scanPairs_break_eq_exhaustive fs fe rest hrest]

/-- Witness for C7 on a concrete start-sorted bucket of (start, end) rows. -/
theorem scanPairs_break_eq_exhaustive_witness :
    scanPairs Prod.fst Prod.snd [(540, 660), (600, 720), (720, 780)] =
      scanPairsExhaustive Prod.fst Prod.snd [(540, 660), (600, 720), (720, 780)] :=
  scanPairs_break_eq_exhaustive Prod.fst Prod.snd
    [(540, 660), (600, 720), (720, 780)] (by decide)

-- ## The collision reporters (compute_db_collisions / compute_teacher_collisions).

/-- INT_TO_DAY.get(d, str(d)): the Swedish weekday label used in reports. -/
def INT_TO_DAY : Nat → String
  | 0 => "Mån"
  | 1 => "Tis"
  | 2 => "Ons"
  | 3 => "Tors"
  | 4 => "Fre"
  | 5 => "Lör"
  | 6 => "Sön"
  | n => toString n

/-- Python sorted(set(...)) over week numbers. -/
def sortedWeeks (ws : List Nat) : List Nat := sortLe natLe ws.dedup

def strLe (s t : String) : Bool := strLt s t || decide (s = t)

/-- Python sorted(set(...)) over token strings (code-point order, shorter prefix
first, exactly Python's str comparison). -/
def sortedTokens (ts : List String) : List String := sortLe strLe ts.dedup

theorem sortedWeeks_nodup (ws : List Nat) : (sortedWeeks ws).Nodup :=
  (List.nodup_dedup ws).perm (sortLe_perm natLe ws.dedup).symm

theorem sortedTokens_nodup (ts : List String) : (sortedTokens ts).Nodup :=
  (List.nodup_dedup ts).perm (sortLe_perm strLe ts.dedup).symm

/-- One expanded row of a collision report: the dict the expansion loops append.
token holds the grouping dimension value (a program in compute_db_collisions, a
teacher in compute_teacher_collisions) and tag the opposite side carried along as
metadata (the joined teacher string resp. the joined program string).  src is the
position of the originating pool row; it only makes provenance statable and feeds no
computation on row values. -/
structure ExpRow where
  termin : String
  veckonummer : Nat
  dag_num : Nat
  veckodag : String
  token : String
  tag : String
  kurskod : String
  start : Nat
  stop : Nat
  src : Nat
deriving DecidableEq

/-- Python truthiness filter (programs_filter / teacher_filter / teachers_filter):
skip the row only when the filter is truthy, i.e. present and non-empty, and misses
the row's token set. -/
def passTokenFilter (filt : Option (List String)) (xs : List String) : Bool :=
  match filt with
  | none => true
  | some f => f.isEmpty || f.any fun t => decide (t ∈ xs)

/-- The day filter is compared against None explicitly in the source, so an empty
set filters everything out. -/
def passDayFilter (filt : Option (List Nat)) (d : Nat) : Bool :=
  match filt with
  | none => true
  | some ds => decide (d ∈ ds)

/-- Expansion of one pool row in compute_db_collisions: one expanded row per (week,
program) pair from sorted(parse_weeks(weeks)) x sorted(gset). -/
def expandRowDb (i : Nat) (r : Row) : List ExpRow :=
  (sortedWeeks r.weeks).flatMap fun w =>
    (sortedTokens r.groups).map fun g =>
      ExpRow.mk r.sem w r.day (INT_TO_DAY r.day) g
        (String.intercalate ";" (sortedTokens r.teachers)) r.course r.start r.stop i

/-- The expansion loop of compute_db_collisions over the pool (i is the position of
the current row), with the programs / teacher / days filters applied per row. -/
def expandDb (pf tf : Option (List String)) (df : Option (List Nat)) :
    List Row → Nat → List ExpRow
  | [], _ => []
  | r :: rest, i =>
    (if passTokenFilter pf r.groups && passTokenFilter tf r.teachers &&
        passDayFilter df r.day then expandRowDb i r else []) ++
      expandDb pf tf df rest (i + 1)

/-- Python (tset or {"" }): the teacher set, or the lone empty token when the set is
empty.  The source iterates the set directly; every bucket below is independent of
the enumeration order, so the sorted enumeration is used. -/
def teacherTokens (ts : List String) : List String :=
  if ts.isEmpty then [""] else sortedTokens ts

theorem teacherTokens_nodup (ts : List String) : (teacherTokens ts).Nodup := by
  unfold teacherTokens
  by_cases h : ts.isEmpty
  · rw [if_pos h]; simp
  · rw [if_neg h]; exact sortedTokens_nodup ts

/-- Expansion of one pool row in compute_teacher_collisions: one expanded row per
(week, teacher) pair. -/
def expandRowTeacher (i : Nat) (r : Row) : List ExpRow :=
  (sortedWeeks r.weeks).flatMap fun w =>
    (teacherTokens r.teachers).map fun t =>
      ExpRow.mk r.sem w r.day (INT_TO_DAY r.day) t
        (String.intercalate ";" (sortedTokens r.groups)) r.course r.start r.stop i

/-- The expansion loop of compute_teacher_collisions with its two filters. -/
def expandTeacher (tf : Option (List String)) (df : Option (List Nat)) :
    List Row → Nat → List ExpRow
  | [], _ => []
  | r :: rest, i =>
    (if passTokenFilter tf r.teachers && passDayFilter df r.day
     then expandRowTeacher i r else []) ++ expandTeacher tf df rest (i + 1)

/-- Pandas groupby key of an expanded row: (termin, dimension token, week, day). -/
def bucketKey (r : ExpRow) : String × String × Nat × Nat :=
  (r.termin, r.token, r.veckonummer, r.dag_num)

/-- Lexicographic order on group keys; pandas groupby iterates keys sorted ascending. -/
def keyLe (k1 k2 : String × String × Nat × Nat) : Bool :=
  lexProd strLt (lexProd strLt (lexProd natLt natLe)) k1 k2

/-- The group keys in groupby iteration order: sorted unique. -/
def groupKeys (exp : List ExpRow) : List (String × String × Nat × Nat) :=
  sortLe keyLe (exp.map bucketKey).dedup

/-- The rows2 list of one bucket: the bucket's rows in expansion order (pandas keeps
original row order inside each group), stably sorted by start time only (the
source's rows2.sort(key=lambda x: x[1])). -/
def bucketRows (exp : List ExpRow) (k : String × String × Nat × Nat) : List ExpRow :=
  sortLe (fun a b => natLe a.start b.start) (exp.filter fun r => decide (bucketKey r = k))

/-- The collision pairs compute_db_collisions accumulates, bucket by bucket, as pairs
of expanded rows (the appended dict is a projection of such a pair, built below). -/
def dbCollisionPairs (pool : List Row) (pf : Option (List String))
    (df : Option (List Nat)) (tf : Option (List String)) : List (ExpRow × ExpRow) :=
  (groupKeys (expandDb pf tf df pool 0)).flatMap fun k =>
    scanPairs ExpRow.start ExpRow.stop (bucketRows (expandDb pf tf df pool 0) k)

/-- The collision pairs compute_teacher_collisions accumulates; buckets whose teacher
token is empty are skipped (the source's `if not teacher: continue`). -/
def teacherCollisionPairs (pool : List Row) (df : Option (List Nat))
    (tf : Option (List String)) : List (ExpRow × ExpRow) :=
  ((groupKeys (expandTeacher tf df pool 0)).filter fun k => decide (k.2.1 ≠ "")).flatMap
    fun k => scanPairs ExpRow.start ExpRow.stop (bucketRows (expandTeacher tf df pool 0) k)

/-- One output record of a collision report, as appended by the source (token/tag as
in ExpRow: program/teacher-string for the db report, teacher/program-string for the
teacher report; the record's weekday label equals the bucket's, which both members
share). -/
structure CollisionRec where
  termin : String
  token : String
  veckonummer : Nat
  veckodag : String
  kurskod_1 : String
  start_1 : Nat
  slut_1 : Nat
  tag_1 : String
  kurskod_2 : String
  start_2 : Nat
  slut_2 : Nat
  tag_2 : String
deriving DecidableEq

def toCollisionRec (p : ExpRow × ExpRow) : CollisionRec :=
  CollisionRec.mk p.1.termin p.1.token p.1.veckonummer p.1.veckodag
    p.1.kurskod p.1.start p.1.stop p.1.tag
    p.2.kurskod p.2.start p.2.stop p.2.tag

/-- The final sort_values key of both reports: (termin, dimension token, week number,
weekday label, start_1, start_2), column tuples compared the way pandas compares them
(strings in code-point order; start times are zero-padded HH:MM strings, which order
exactly like their minute counts, carried here as those counts). -/
def recLe (a b : CollisionRec) : Bool :=
  lexProd strLt (lexProd strLt (lexProd natLt (lexProd strLt (lexProd natLt natLe))))
    (a.termin, a.token, a.veckonummer, a.veckodag, a.start_1, a.start_2)
    (b.termin, b.token, b.veckonummer, b.veckodag, b.start_1, b.start_2)

/-- Shallow embedding of conflicts.compute_db_collisions: expand, bucket, scan, then
sort the records by the report key.  (Pandas sort_values is an unstable but
deterministic sort; the facts proved below do not depend on tie order.  When the
expanded frame is non-empty but no collision exists, the source's final
sort_values call raises a pandas KeyError; the statements below concern the outputs
the function returns.) -/
def compute_db_collisions (pool : List Row) (pf : Option (List String))
    (df : Option (List Nat)) (tf : Option (List String)) : List CollisionRec :=
  sortLe recLe ((dbCollisionPairs pool pf df tf).map toCollisionRec)

/-- Shallow embedding of conflicts.compute_teacher_collisions. -/
def compute_teacher_collisions (pool : List Row) (df : Option (List Nat))
    (tf : Option (List String)) : List CollisionRec :=
  sortLe recLe ((teacherCollisionPairs pool df tf).map toCollisionRec)

-- ## Provenance facts feeding C10.

theorem innerScan_mem {fs fe : α → Nat} {r1 : α} :
    ∀ {l : List α} {p q : α}, (p, q) ∈ innerScan fs fe r1 l → p = r1 ∧ q ∈ l := by
  intro l
  induction l with
  | nil => intro p q h; exact absurd h (List.not_mem_nil _)
  | cons r2 rest ih =>
    intro p q h
    simp only [innerScan] at h
    by_cases hb : fe r1 ≤ fs r2
    · rw [if_pos hb] at h
      exact absurd h (List.not_mem_nil _)
    · rw [if_neg hb] at h
      by_cases hov : overlaps (fs r1) (fe r1) (fs r2) (fe r2) = true
      · rw [if_pos hov] at h
        rcases List.mem_cons.mp h with heq | h'
        · injection heq with e1 e2
          exact ⟨e1, by rw [e2]; exact List.mem_cons_self _ _⟩
        · rcases ih h' with ⟨hp, hq⟩
          exact ⟨hp, List.mem_cons_of_mem _ hq⟩
      · rw [if_neg (by simpa using hov)] at h
        rcases ih h with ⟨hp, hq⟩
        exact ⟨hp, List.mem_cons_of_mem _ hq⟩

/-- Pairs emitted by the scan pair distinct positions; when some projection of the
rows is duplicate-free, the two members always differ on it. -/
theorem scanPairs_proj_ne {fs fe : α → Nat} (f : α → Nat) :
    ∀ l : List α, (l.map f).Nodup →
      ∀ p q : α, (p, q) ∈ scanPairs fs fe l → f p ≠ f q := by
  intro l
  induction l with
  | nil => intro _ p q h; exact absurd h (List.not_mem_nil _)
  | cons r rest ih =>
    intro hnd p q h
    rw [List.map_cons, List.nodup_cons] at hnd
    rcases hnd with ⟨hnotin, hnd'⟩
    rcases List.mem_append.mp h with h' | h'
    · rcases innerScan_mem h' with ⟨rfl, hq⟩
      intro hEq
      exact hnotin (hEq ▸ List.mem_map_of_mem f hq)
    · exact ih hnd' p q h'

theorem nodup_of_length_le_one {l : List γ} (h : l.length ≤ 1) : l.Nodup := by
  cases l with
  | nil => exact List.nodup_nil
  | cons x xs =>
    cases xs with
    | nil => simp
    | cons y ys => simp at h

/-- In a map over a duplicate-free list, at most one element satisfies a predicate
that pins down the argument. -/
theorem filter_map_len_le_one {F : κ → γ} {P : γ → Bool}
    (huniq : ∀ j j', P (F j) = true → P (F j') = true → j = j') :
    ∀ ts : List κ, ts.Nodup → ((ts.map F).filter P).length ≤ 1
  | [], _ => by simp
  | t :: ts, hnd => by
    rcases List.nodup_cons.mp hnd with ⟨hnotin, hnd'⟩
    simp only [List.map_cons, List.filter_cons]
    by_cases hp : P (F t) = true
    · rw [if_pos hp]
      have hnil : (ts.map F).filter P = [] := by
        apply List.filter_eq_nil_iff.mpr
        intro x hx hPx
        rcases List.mem_map.mp hx with ⟨j, hj, rfl⟩
        exact hnotin (huniq j t hPx hp ▸ hj)
      simp [hnil]
    · rw [if_neg hp]
      exact filter_map_len_le_one huniq ts hnd'

/-- In a (week x token) expansion block, at most one expanded row lands in any given
bucket, because the bucket key pins down both the week and the token. -/
theorem filter_flatMap_len_le_one {F : ι → κ → γ} {P : γ → Bool}
    (huniq : ∀ i j i' j', P (F i j) = true → P (F i' j') = true → i = i' ∧ j = j') :
    ∀ (ws : List ι) (ts : List κ), ws.Nodup → ts.Nodup →
      ((ws.flatMap fun w => ts.map fun t => F w t).filter P).length ≤ 1
  | [], _, _, _ => by simp
  | w :: ws, ts, hndw, hndt => by
    rcases List.nodup_cons.mp hndw with ⟨hwnotin, hndw'⟩
    simp only [List.flatMap_cons, List.filter_append, List.length_append]
    by_cases hblock : ((ts.map fun t => F w t).filter P).length = 0
    · have hrec := filter_flatMap_len_le_one huniq ws ts hndw' hndt
      omega
    · have hxmem : ∃ x, x ∈ (ts.map fun t => F w t).filter P := by
        cases hfl : (ts.map fun t => F w t).filter P with
        | nil => exact absurd (by rw [hfl]; rfl) hblock
        | cons x xs => exact ⟨x, List.mem_cons_self _ _⟩
      rcases hxmem with ⟨x, hx⟩
      rcases List.mem_filter.mp hx with ⟨hxm, hPx0⟩
      rcases List.mem_map.mp hxm with ⟨j0, hj0, rfl⟩
      have hrest : ((ws.flatMap fun w' => ts.map fun t => F w' t).filter P) = [] := by
        apply List.filter_eq_nil_iff.mpr
        intro y hy hPy
        rcases List.mem_flatMap.mp hy with ⟨w', hw', hy'⟩
        rcases List.mem_map.mp hy' with ⟨j', hj', rfl⟩
        exact hwnotin ((huniq w' j' w j0 hPy hPx0).1 ▸ hw')
      have hb1 : ((ts.map fun t => F w t).filter P).length ≤ 1 :=
        filter_map_len_le_one (fun j j' h1 h2 => (huniq w j w j' h1 h2).2) ts hndt
      rw [hrest]
      simp only [List.length_nil]
      omega

theorem expandRowDb_src (i : Nat) (r : Row) : ∀ x ∈ expandRowDb i r, x.src = i := by
  intro x hx
  rcases List.mem_flatMap.mp hx with ⟨w, hw, hx'⟩
  rcases List.mem_map.mp hx' with ⟨g, hg, rfl⟩
  rfl

theorem expandRowTeacher_src (i : Nat) (r : Row) :
    ∀ x ∈ expandRowTeacher i r, x.src = i := by
  intro x hx
  rcases List.mem_flatMap.mp hx with ⟨w, hw, hx'⟩
  rcases List.mem_map.mp hx' with ⟨t, ht, rfl⟩
  rfl

theorem expandDb_src_ge (pf tf : Option (List String)) (df : Option (List Nat)) :
    ∀ (pool : List Row) (i : Nat) (x : ExpRow), x ∈ expandDb pf tf df pool i → i ≤ x.src
  | [], _, x => by simp [expandDb]
  | r :: rest, i, x => by
    simp only [expandDb, List.mem_append]
    rintro (hx | hx)
    · by_cases hc : (passTokenFilter pf r.groups && passTokenFilter tf r.teachers &&
          passDayFilter df r.day) = true
      · rw [if_pos hc] at hx
        exact le_of_eq (expandRowDb_src i r x hx).symm
      · rw [if_neg hc] at hx
        exact absurd hx (List.not_mem_nil x)
    · have := expandDb_src_ge pf tf df rest (i + 1) x hx
      omega

theorem expandTeacher_src_ge (tf : Option (List String)) (df : Option (List Nat)) :
    ∀ (pool : List Row) (i : Nat) (x : ExpRow),
      x ∈ expandTeacher tf df pool i → i ≤ x.src
  | [], _, x => by simp [expandTeacher]
  | r :: rest, i, x => by
    simp only [expandTeacher, List.mem_append]
    rintro (hx | hx)
    · by_cases hc : (passTokenFilter tf r.teachers && passDayFilter df r.day) = true
      · rw [if_pos hc] at hx
        exact le_of_eq (expandRowTeacher_src i r x hx).symm
      · rw [if_neg hc] at hx
        exact absurd hx (List.not_mem_nil x)
    · have := expandTeacher_src_ge tf df rest (i + 1) x hx
      omega

/-- Per bucket, the db expansion contributes pairwise-distinct source positions:
each pool row lands in a given (termin, program, week, day) bucket at most once. -/
theorem expandDb_filter_src_nodup (pf tf : Option (List String)) (df : Option (List Nat))
    (k : String × String × Nat × Nat) :
    ∀ (pool : List Row) (i : Nat),
      (((expandDb pf tf df pool i).filter fun r => decide (bucketKey r = k)).map
        ExpRow.src).Nodup
  | [], _ => by simp [expandDb]
  | r :: rest, i => by
    simp only [expandDb, List.filter_append, List.map_append]
    refine List.nodup_append.mpr
      ⟨?_, expandDb_filter_src_nodup pf tf df k rest (i + 1), ?_⟩
    · by_cases hc : (passTokenFilter pf r.groups && passTokenFilter tf r.teachers &&
          passDayFilter df r.day) = true
      · rw [if_pos hc]
        apply nodup_of_length_le_one
        rw [List.length_map]
        unfold expandRowDb
        refine filter_flatMap_len_le_one ?_ (sortedWeeks r.weeks) (sortedTokens r.groups)
          (sortedWeeks_nodup _) (sortedTokens_nodup _)
        intro w g w' g' h1 h2
        simp only [decide_eq_true_eq] at h1 h2
        have h3 := h1.trans h2.symm
        exact ⟨congrArg (fun t : String × String × Nat × Nat => t.2.2.1) h3,
          congrArg (fun t : String × String × Nat × Nat => t.2.1) h3⟩
      · rw [if_neg hc]
        simp
    · intro a ha hb
      rcases List.mem_map.mp ha with ⟨x, hx, rfl⟩
      rcases List.mem_map.mp hb with ⟨y, hy, hxy⟩
      rcases List.mem_filter.mp hx with ⟨hx', -⟩
      rcases List.mem_filter.mp hy with ⟨hy', -⟩
      have hxs : x.src = i := by
        by_cases hc : (passTokenFilter pf r.groups && passTokenFilter tf r.teachers &&
            passDayFilter df r.day) = true
        · rw [if_pos hc] at hx'
          exact expandRowDb_src i r x hx'
        · rw [if_neg hc] at hx'
          exact absurd hx' (List.not_mem_nil x)
      have hys : i + 1 ≤ y.src := expandDb_src_ge pf tf df rest (i + 1) y hy'
      omega

/-- Per bucket, the teacher expansion contributes pairwise-distinct source positions. -/
theorem expandTeacher_filter_src_nodup (tf : Option (List String))
    (df : Option (List Nat)) (k : String × String × Nat × Nat) :
    ∀ (pool : List Row) (i : Nat),
      (((expandTeacher tf df pool i).filter fun r => decide (bucketKey r = k)).map
        ExpRow.src).Nodup
  | [], _ => by simp [expandTeacher]
  | r :: rest, i => by
    simp only [expandTeacher, List.filter_append, List.map_append]
    refine List.nodup_append.mpr
      ⟨?_, expandTeacher_filter_src_nodup tf df k rest (i + 1), ?_⟩
    · by_cases hc : (passTokenFilter tf r.teachers && passDayFilter df r.day) = true
      · rw [if_pos hc]
        apply nodup_of_length_le_one
        rw [List.length_map]
        unfold expandRowTeacher
        refine filter_flatMap_len_le_one ?_ (sortedWeeks r.weeks)
          (teacherTokens r.teachers) (sortedWeeks_nodup _) (teacherTokens_nodup _)
        intro w t w' t' h1 h2
        simp only [decide_eq_true_eq] at h1 h2
        have h3 := h1.trans h2.symm
        exact ⟨congrArg (fun t : String × String × Nat × Nat => t.2.2.1) h3,
          congrArg (fun t : String × String × Nat × Nat => t.2.1) h3⟩
      · rw [if_neg hc]
        simp
    · intro a ha hb
      rcases List.mem_map.mp ha with ⟨x, hx, rfl⟩
      rcases List.mem_map.mp hb with ⟨y, hy, hxy⟩
      rcases List.mem_filter.mp hx with ⟨hx', -⟩
      rcases List.mem_filter.mp hy with ⟨hy', -⟩
      have hxs : x.src = i := by
        by_cases hc : (passTokenFilter tf r.teachers && passDayFilter df r.day) = true
        · rw [if_pos hc] at hx'
          exact expandRowTeacher_src i r x hx'
        · rw [if_neg hc] at hx'
          exact absurd hx' (List.not_mem_nil x)
      have hys : i + 1 ≤ y.src := expandTeacher_src_ge tf df rest (i + 1) y hy'
      omega

theorem dbCollisionPairs_src_ne (pool : List Row) (pf tf : Option (List String))
    (df : Option (List Nat)) (p q : ExpRow)
    (h : (p, q) ∈ dbCollisionPairs pool pf df tf) : p.src ≠ q.src := by
  rcases List.mem_flatMap.mp h with ⟨k, hk, hpq⟩
  have h1 := expandDb_filter_src_nodup pf tf df k pool 0
  have hperm : List.Perm (bucketRows (expandDb pf tf df pool 0) k)
      ((expandDb pf tf df pool 0).filter fun r => decide (bucketKey r = k)) :=
    sortLe_perm _ _
  have hnd : ((bucketRows (expandDb pf tf df pool 0) k).map ExpRow.src).Nodup :=
    h1.perm (hperm.map ExpRow.src).symm
  exact scanPairs_proj_ne ExpRow.src _ hnd p q hpq

theorem teacherCollisionPairs_src_ne (pool : List Row) (df : Option (List Nat))
    (tf : Option (List String)) (p q : ExpRow)
    (h : (p, q) ∈ teacherCollisionPairs pool df tf) : p.src ≠ q.src := by
  rcases List.mem_flatMap.mp h with ⟨k, hk, hpq⟩
  have h1 := expandTeacher_filter_src_nodup tf df k pool 0
  have hperm : List.Perm (bucketRows (expandTeacher tf df pool 0) k)
      ((expandTeacher tf df pool 0).filter fun r => decide (bucketKey r = k)) :=
    sortLe_perm _ _
  have hnd : ((bucketRows (expandTeacher tf df pool 0) k).map ExpRow.src).Nodup :=
    h1.perm (hperm.map ExpRow.src).symm
  exact scanPairs_proj_ne ExpRow.src _ hnd p q hpq

/-- C10: the collision reporters never report an event against itself: each pool row
contributes at most one expanded row to any (dimension token, week, day) bucket, and
the scan only pairs distinct bucket positions, so the two members of every emitted
pair stem from distinct pool rows. -/
theorem collision_pair_rows_distinct (pool : List Row)
    (pf tf tf2 : Option (List String)) (df df2 : Option (List Nat)) (p q : ExpRow)
    (h : (p, q) ∈ dbCollisionPairs pool pf df tf ∨
      (p, q) ∈ teacherCollisionPairs pool df2 tf2) :
    p.src ≠ q.src := by
  rcases h with h | h
  · exact dbCollisionPairs_src_ne pool pf tf df p q h
  · exact teacherCollisionPairs_src_ne pool df2 tf2 p q h

/-- Witness for C10 on a two-row pool whose sessions collide for program MTBG. -/
theorem collision_pair_rows_distinct_witness :
    (ExpRow.mk "HT25" 36 0 "Mån" "MTBG" "ANNA" "K1" 540 660 0).src ≠
      (ExpRow.mk "HT25" 36 0 "Mån" "MTBG" "BO" "K2" 600 720 1).src :=
  collision_pair_rows_distinct
    [Row.mk "K1" ["MTBG"] 0 540 660 [36] "HT25" ["ANNA"],
      Row.mk "K2" ["MTBG"] 0 600 720 [36] "HT25" ["BO"]]
    none none none none none _ _ (Or.inl (by decide))

theorem recLe_trans (a b c : CollisionRec) (h1 : recLe a b = true)
    (h2 : recLe b c = true) : recLe a c = true :=
  lexProd_trans strLt_trans
    (lexProd_trans strLt_trans
      (lexProd_trans natLt_trans
        (lexProd_trans strLt_trans
          (lexProd_trans natLt_trans natLe_trans)))) _ _ _ h1 h2

theorem recLe_total (a b : CollisionRec) : recLe a b = true ∨ recLe b a = true :=
  lexProd_total strLt_trichotomy
    (lexProd_total strLt_trichotomy
      (lexProd_total natLt_trichotomy
        (lexProd_total strLt_trichotomy
          (lexProd_total natLt_trichotomy natLe_total)))) _ _

/-- C8: both collision reports come out sorted by the report key (semester, grouping
dimension token, week number, weekday label, start_1, start_2) - the semester
component is constant for a single-semester pool, leaving exactly the claimed
dimension/week/weekday/start order - and rerunning a reporter on the same pool
yields the identical, order-stable output. -/
theorem collision_reports_sorted_deterministic (pool : List Row)
    (pf tf tf2 : Option (List String)) (df df2 : Option (List Nat)) :
    List.Pairwise (fun a b => recLe a b = true) (compute_db_collisions pool pf df tf) ∧
    List.Pairwise (fun a b => recLe a b = true)
      (compute_teacher_collisions pool df2 tf2) ∧
    compute_db_collisions pool pf df tf = compute_db_collisions pool pf df tf ∧
    compute_teacher_collisions pool df2 tf2 = compute_teacher_collisions pool df2 tf2 :=
  ⟨sortLe_sorted recLe_trans recLe_total _, sortLe_sorted recLe_trans recLe_total _,
    rfl, rfl⟩
